import Mathlib

/-!
Verification of the Protocol Segmentation and Wave Classification Engine
of the TI_SlowWave_SourceRecon repository.

The four components are embedded shallowly from the Python sources:

* `cleanEvents`      from `SW-detect/event_cleaning.py`  (`clean_events`)
* `createAndVisualizeEpochs` from `SW-detect/epoch_creation.py`
  (`create_and_visualize_epochs`; plotting, which is pure I/O, is omitted)
* `classifyWaveTime`, `classifyWaveRegion`, `classifyAndFilterWaves`
  from `SW-detect/wave_classification.py`
* `filterEpochs`     from `SW-detect/wave_filtering.py` (`filter_epochs`)

Times and amplitudes are modelled as rationals; pandas DataFrames as lists
of records in row order.
-/

/-! ## Event Validator (`event_cleaning.py`, `clean_events`) -/

/-- One annotation row extracted from the raw recording: onset time in
seconds and the description string.  The `Duration` column of the source
DataFrame is never read by the validator and is omitted. -/
structure Annotation where
  onset : ℚ
  description : String
deriving DecidableEq

/-- One entry of the `omitted_events` list built by `clean_events`.
The source appends dictionaries of two shapes: a pair omission with reason
`Invalid duration (...)` carrying both onsets and the measured duration,
and a single-event omission with reason `Unexpected event '...'` carrying
the event onset and description. -/
inductive OmittedRecord where
  | pair (startOnset endOnset timeDiff : ℚ)
  | single (onset : ℚ) (description : String)
deriving DecidableEq

/-- `min_duration = 170` hardcoded in `clean_events`. -/
def minDuration : ℚ := 170

/-- `max_duration = 220` hardcoded in `clean_events`. -/
def maxDuration : ℚ := 220

/-- The `while i < len(stim_events)` loop of `clean_events`.  The state is
the buffered start event: `none` models `expected_event == 'stim start'`,
`some s` models `expected_event == 'stim end'` with `stim_start_event = s`.
Each iteration compares the current description with the expected one;
on a mismatch the event is recorded as omitted and the expected event is
reset to `stim start` (source line: `expected_event = 'stim start'` in the
`else` branch), which discards any buffered start. -/
def cleanLoop : Option Annotation → List Annotation → List Annotation × List OmittedRecord
  | _, [] => ([], [])
  | none, ev :: rest =>
      if ev.description = "stim start" then
        cleanLoop (some ev) rest
      else
        let r := cleanLoop none rest
        (r.1, .single ev.onset ev.description :: r.2)
  | some s, ev :: rest =>
      if ev.description = "stim end" then
        let d := ev.onset - s.onset
        if minDuration ≤ d ∧ d ≤ maxDuration then
          let r := cleanLoop none rest
          (s :: ev :: r.1, r.2)
        else
          let r := cleanLoop none rest
          (r.1, .pair s.onset ev.onset d :: r.2)
      else
        let r := cleanLoop none rest
        (r.1, .single ev.onset ev.description :: r.2)

/-- `clean_events`: filter the annotations to the `stim start` / `stim end`
descriptions and run the validation loop, returning the cleaned event rows
and the omitted-event records.  (The third return value of the source, the
`durations` list recomputed for plotting, is not modelled; no claim
concerns it.) -/
def cleanEvents (annotations : List Annotation) : List Annotation × List OmittedRecord :=
  cleanLoop none
    (annotations.filter fun a =>
      a.description = "stim start" ∨ a.description = "stim end")

/-- `clean_events` wraps its body in try/except and re-raises any exception.
For an in-memory list input no operation in the body raises, in particular
an empty annotation input flows through the filter and the loop and returns
empty outputs; so the embedded fallible version always returns `ok`. -/
def cleanEventsExcept (annotations : List Annotation) :
    Except String (List Annotation × List OmittedRecord) :=
  Except.ok (cleanEvents annotations)

/-- A stream is strictly alternating `stim start` / `stim end` pairs whose
durations all lie inside `[minDuration, maxDuration]`. -/
def validStream : List Annotation → Bool
  | [] => true
  | [_] => false
  | s :: e :: rest =>
      decide (s.description = "stim start" ∧ e.description = "stim end" ∧
        minDuration ≤ e.onset - s.onset ∧ e.onset - s.onset ≤ maxDuration)
      && validStream rest

/-! ## Region-map loader (`wave_classification.py`, `load_net_segmentation_json`) -/

/-- The parsed `net_segmentation.json`: region name to list of channel
groups, in file order. -/
def NetSegData : Type := List (String × List (List String))

/-- `load_net_segmentation_json`: the file contents are modelled as an
`Option`; a missing file (`none`) raises `FileNotFoundError`, otherwise the
parsed data is returned. -/
def loadNetSegmentationJson : Option NetSegData → Except String NetSegData
  | none => Except.error "Net segmentation JSON file not found at path"
  | some d => Except.ok d

/-! ## Epoch Segmenter (`epoch_creation.py`, `create_and_visualize_epochs`) -/

/-- One epoch tuple `(start, end, protocol)` as built by
`create_and_visualize_epochs`.  `stop` models the tuple's `end` component. -/
structure Epoch where
  start : ℚ
  stop : ℚ
  proto : ℕ
deriving DecidableEq

/-- One entry of the `overlaps` list: the protocol pair
`(protocol_number - 1, protocol_number)`, the overlap amount, and the
overlap region boundaries recorded before the adjustment. -/
structure OverlapRecord where
  protoPair : ℕ × ℕ
  amount : ℚ
  ovStart : ℚ
  ovStop : ℚ
deriving DecidableEq

/-- The warnings printed by the segmenter when a clamp fires. -/
inductive SegWarning where
  | negPostDuration (protocol : ℕ)
  | negPreDuration (protocol : ℕ)
deriving DecidableEq

/-- Loop state of `create_and_visualize_epochs`.  The source appends to the
epoch lists and mutates the last element of `post_stim_epochs`; here each
list is kept in reverse order so that the mutable last element is the head,
and the lists are reversed once at the end.  `overlapsRev` and
`warningsRev` are likewise reversed accumulation order. -/
structure SegState where
  preRev : List Epoch
  stimRev : List Epoch
  postRev : List Epoch
  protoNum : ℕ
  prevPostEnd : ℚ
  overlapsRev : List OverlapRecord
  warningsRev : List SegWarning
deriving DecidableEq

/-- Initial state: empty lists, `protocol_number = 1`,
`prev_post_stim_end = 0`. -/
def segInit : SegState :=
  { preRev := [], stimRev := [], postRev := [], protoNum := 1,
    prevPostEnd := 0, overlapsRev := [], warningsRev := [] }

/-- One iteration of the segmenter loop for the event pair
`(stim_start, stim_end)`, faithful to the overlap branch structure of the
source: when `overlap_amount > 0` an overlap record is appended; if a
previous post-stim epoch exists its end is shrunk by half the overlap
(clamped at its own start, with a warning) and the current pre-stim start
is grown by half the overlap (clamped at its own end, with a warning);
without a previous post-stim epoch only the pre-stim start is grown.
`prev_post_stim_end` is always updated to the unshrunk `orig_post_end`. -/
def segStep (st : SegState) (pair : ℚ × ℚ) : SegState :=
  let stimStart := pair.1
  let stimEnd := pair.2
  let stimDuration := stimEnd - stimStart
  let origPreStart := stimStart - stimDuration
  let origPreEnd := stimStart
  let origPostStart := stimEnd
  let origPostEnd := stimEnd + stimDuration
  let overlapAmount := st.prevPostEnd - origPreStart
  if overlapAmount > 0 then
    let ovRec : OverlapRecord :=
      { protoPair := (st.protoNum - 1, st.protoNum), amount := overlapAmount,
        ovStart := origPreStart, ovStop := origPreStart + overlapAmount }
    let halfOverlap := overlapAmount / 2
    match st.postRev with
    | prevPost :: postRest =>
        let adjPrevPostEnd0 := prevPost.stop - halfOverlap
        let adjPrevPostEnd :=
          if adjPrevPostEnd0 < prevPost.start then prevPost.start else adjPrevPostEnd0
        let adjPreStart0 := origPreStart + halfOverlap
        let adjPreStart := if adjPreStart0 > origPreEnd then origPreEnd else adjPreStart0
        { preRev := ⟨adjPreStart, origPreEnd, st.protoNum⟩ :: st.preRev,
          stimRev := ⟨stimStart, stimEnd, st.protoNum⟩ :: st.stimRev,
          postRev := ⟨origPostStart, origPostEnd, st.protoNum⟩ ::
            ⟨prevPost.start, adjPrevPostEnd, prevPost.proto⟩ :: postRest,
          protoNum := st.protoNum + 1,
          prevPostEnd := origPostEnd,
          overlapsRev := ovRec :: st.overlapsRev,
          warningsRev :=
            (if adjPreStart0 > origPreEnd then [SegWarning.negPreDuration st.protoNum] else []) ++
            (if adjPrevPostEnd0 < prevPost.start then [SegWarning.negPostDuration prevPost.proto]
              else []) ++
            st.warningsRev }
    | [] =>
        let adjPreStart0 := origPreStart + halfOverlap
        let adjPreStart := if adjPreStart0 > origPreEnd then origPreEnd else adjPreStart0
        { preRev := ⟨adjPreStart, origPreEnd, st.protoNum⟩ :: st.preRev,
          stimRev := ⟨stimStart, stimEnd, st.protoNum⟩ :: st.stimRev,
          postRev := [⟨origPostStart, origPostEnd, st.protoNum⟩],
          protoNum := st.protoNum + 1,
          prevPostEnd := origPostEnd,
          overlapsRev := ovRec :: st.overlapsRev,
          warningsRev :=
            (if adjPreStart0 > origPreEnd then [SegWarning.negPreDuration st.protoNum] else []) ++
            st.warningsRev }
  else
    { preRev := ⟨origPreStart, origPreEnd, st.protoNum⟩ :: st.preRev,
      stimRev := ⟨stimStart, stimEnd, st.protoNum⟩ :: st.stimRev,
      postRev := ⟨origPostStart, origPostEnd, st.protoNum⟩ :: st.postRev,
      protoNum := st.protoNum + 1,
      prevPostEnd := origPostEnd,
      overlapsRev := st.overlapsRev,
      warningsRev := st.warningsRev }

/-- `for i in range(0, len(cleaned_events_df), 2)` pairing of consecutive
onsets; a trailing unpaired event is skipped (source: warning and break). -/
def pairUp : List ℚ → List (ℚ × ℚ)
  | a :: b :: rest => (a, b) :: pairUp rest
  | _ => []

/-- The full segmenter output. -/
structure SegResult where
  pre : List Epoch
  stim : List Epoch
  post : List Epoch
  overlaps : List OverlapRecord
  warnings : List SegWarning
deriving DecidableEq

/-- `create_and_visualize_epochs`: sort the cleaned events by onset
(`sort_values(by='Onset')`), pair consecutive rows, and fold the step over
the pairs.  The plotting calls of the source are pure I/O and are omitted. -/
def createAndVisualizeEpochs (cleanedEvents : List Annotation) : SegResult :=
  let sortedOnsets :=
    ((cleanedEvents.map Annotation.onset).insertionSort (· ≤ ·))
  let st := (pairUp sortedOnsets).foldl segStep segInit
  { pre := st.preRev.reverse, stim := st.stimRev.reverse,
    post := st.postRev.reverse, overlaps := st.overlapsRev.reverse,
    warnings := st.warningsRev.reverse }

/-! ## Wave Classifier (`wave_classification.py`) -/

/-- `classify_wave_time`: scan the pre-stim list, then the stim list, then
the post-stim list, returning the label and protocol of the first epoch
whose closed interval `[start, end]` contains the wave start time;
otherwise `('Unknown', None)`. -/
def findContaining (t : ℚ) : List Epoch → Option Epoch :=
  List.find? fun e => decide (e.start ≤ t ∧ t ≤ e.stop)

/-- The time classification of `classify_wave_time`, with the source label
strings. -/
def classifyWaveTime (t : ℚ) (preStimEpochs stimEpochs postStimEpochs : List Epoch) :
    String × Option ℕ :=
  match findContaining t preStimEpochs with
  | some e => ("Pre-Stim", some e.proto)
  | none =>
    match findContaining t stimEpochs with
    | some e => ("Stim", some e.proto)
    | none =>
      match findContaining t postStimEpochs with
      | some e => ("Post-Stim", some e.proto)
      | none => ("Unknown", none)

/-- Mapping from the region names of `net_segmentation.json` to the labels
returned by `classify_wave_region`. -/
def regionLabel (regionName : String) : String :=
  if regionName = "Left Frontal" then "L_frontal"
  else if regionName = "Right Frontal" then "R_frontal"
  else if regionName = "Parietal" then "Posterior"
  else "Unclassified"

/-- `classify_wave_region`: scan the regions in file order; within each
region, the channel groups; return the label of the first region with a
group containing the channel, else `Unclassified`. -/
def classifyWaveRegion (channel : String) : List (String × List (List String)) → String
  | [] => "Unclassified"
  | (regionName, channelGroups) :: rest =>
      if channelGroups.any fun grp => grp.contains channel then
        regionLabel regionName
      else classifyWaveRegion channel rest

/-- One row of the detected-waves DataFrame, restricted to the columns the
classifier reads (`Start`, `Channel`); the remaining numeric columns are
carried by the deduplicator stage's own record type. -/
structure WaveRow where
  start : ℚ
  channel : String
deriving DecidableEq

/-- One classified, retained and named output row of
`classify_and_filter_waves`. -/
structure ClassifiedRow where
  start : ℚ
  channel : String
  classification : String
  protoNumber : ℕ
  region : String
  name : String
deriving DecidableEq

/-- The `str.lower()` then `str.replace(" ", "-")` normalization applied to
a classification label, expressed characterwise (replacing a single-char
pattern equals mapping over the characters). -/
def lowerDash (s : String) : String :=
  ⟨(s.data.map Char.toLower).map fun c => if c = ' ' then '-' else c⟩

/-- The `Slow_Wave_Name` format string. -/
def slowWaveName (protoNumber : ℕ) (classification : String) (n : ℕ) : String :=
  "proto" ++ toString protoNumber ++ "_" ++ classification ++ "_sw" ++ toString n

/-- A classified and retained row before naming: time classification
already lower-cased and hyphenated, protocol number already `astype(int)`. -/
structure PreparedRow where
  start : ℚ
  channel : String
  classification : String
  protoNumber : ℕ
  region : String
deriving DecidableEq

/-- The `groupby(['Protocol Number', 'Classification']).cumcount() + 1`
naming pass: `seen` holds the `(protocol, classification)` keys of the rows
already processed, so each row's suffix is one plus the number of earlier
rows in its group. -/
def nameRows (seen : List (ℕ × String)) : List PreparedRow → List ClassifiedRow
  | [] => []
  | row :: rest =>
      let n := seen.count (row.protoNumber, row.classification) + 1
      { start := row.start, channel := row.channel,
        classification := row.classification,
        protoNumber := row.protoNumber, region := row.region,
        name := slowWaveName row.protoNumber row.classification n }
        :: nameRows ((row.protoNumber, row.classification) :: seen) rest

/-- The categorical rank of a classification label under
`classification_order = ['pre-stim', 'stim', 'post-stim']`. -/
def classificationRank (classification : String) : ℕ :=
  if classification = "pre-stim" then 0
  else if classification = "stim" then 1
  else if classification = "post-stim" then 2
  else 3

/-- The sort key of `sort_values(by=['Protocol Number', 'Classification',
'Slow_Wave_Name'])`: protocol number, categorical classification rank, and
the name compared as a string. -/
def rowKey (r : ClassifiedRow) : ℕ ×ₗ (ℕ ×ₗ String) :=
  (r.protoNumber, classificationRank r.classification, r.name)

/-- The row order used by the final sort. -/
def rowLE (a b : ClassifiedRow) : Prop := rowKey a ≤ rowKey b

instance : DecidableRel rowLE := fun a b =>
  inferInstanceAs (Decidable (rowKey a ≤ rowKey b))

instance : IsTotal ClassifiedRow rowLE := ⟨fun a b => le_total (rowKey a) (rowKey b)⟩

instance : IsTrans ClassifiedRow rowLE := ⟨fun _ _ _ h h2 => le_trans h h2⟩

/-- First stages of `classify_and_filter_waves`: classify every wave by
time and by region,
drop the rows whose time classification is `Unknown`, lower-case and
hyphenate the labels, assign the per-(protocol, classification) sequential
names, and sort by `(Protocol Number, Classification, Slow_Wave_Name)`.
The net segmentation data, loaded from `net_segmentation.json` by the
source, is passed as a parameter.  `Protocol Number` of a retained row is
read with `astype(int)`; `classify_wave_time` never returns a
classification other than `Unknown` together with `None`, so the
`Option.getD 0` default is never used. -/
def classifiedRows (netSegData : List (String × List (List String)))
    (df : List WaveRow) (preStimEpochs stimEpochs postStimEpochs : List Epoch) :
    List PreparedRow :=
  let classified := df.map fun r =>
    let tp := classifyWaveTime r.start preStimEpochs stimEpochs postStimEpochs
    (r, tp.1, tp.2, classifyWaveRegion r.channel netSegData)
  let filtered := classified.filter fun q => ¬ q.2.1 = "Unknown"
  filtered.map fun q =>
    { start := q.1.start, channel := q.1.channel,
      classification := lowerDash q.2.1, protoNumber := (q.2.2.1).getD 0,
      region := q.2.2.2 }

/-- The final stage of `classify_and_filter_waves`: name the retained rows
in row order and sort by the three-component key. -/
def classifyAndFilterWaves (netSegData : List (String × List (List String)))
    (df : List WaveRow) (preStimEpochs stimEpochs postStimEpochs : List Epoch) :
    List ClassifiedRow :=
  (nameRows []
      (classifiedRows netSegData df preStimEpochs stimEpochs postStimEpochs)).insertionSort
    rowLE

/-! ## Wave Deduplicator (`wave_filtering.py`, `filter_epochs`) -/

/-- One row of the sorted classified wave table, restricted to the columns
`filter_epochs` reads (`Start`, `End`, `ValNegPeak`).  The whole row is
passed through unchanged, so containment of an output row in the input
captures that all fields are unmodified. -/
structure Wave where
  start : ℚ
  stop : ℚ
  valNegPeak : ℚ
deriving DecidableEq

/-- Python `min(current_window, key=lambda x: x['ValNegPeak'])`: the first
element attaining the minimum (the accumulator is replaced only on a
strictly smaller key). -/
def pickMostNegative : Wave → List Wave → Wave
  | w, [] => w
  | w, x :: xs =>
      if x.valNegPeak < w.valNegPeak then pickMostNegative x xs
      else pickMostNegative w xs

/-- The wave selected from a resolved window group: its first element, or
the first most-negative element when `pick_most_negative` is set. -/
def selectWave (pickMostNeg : Bool) (c : Wave) (cs : List Wave) : Wave :=
  if pickMostNeg then pickMostNegative c cs else c

/-- The `start_time > last_end_time + window_size` test;
`last_end_time = -float('inf')` before any window has opened is modelled by
`none`, for which the test is always true. -/
def opensNewWindow (lastEndTime : Option ℚ) (startTime windowSize : ℚ) : Bool :=
  match lastEndTime with
  | none => true
  | some le => decide (startTime > le + windowSize)

/-- The row loop of `filter_epochs`.  When a wave opens a new window the
accumulated `current_window` (if nonempty) is resolved and appended to the
output, the window restarts with the new wave, and `last_end_time` is set
to the new wave's `End`; otherwise the wave joins `current_window` and
`last_end_time` is unchanged.  The final window is flushed at end of input. -/
def filterLoop (pickMostNeg : Bool) (windowSize : ℚ) :
    Option ℚ → List Wave → List Wave → List Wave
  | _, [], [] => []
  | _, c :: cs, [] => [selectWave pickMostNeg c cs]
  | lastEndTime, currentWindow, w :: rest =>
      if opensNewWindow lastEndTime w.start windowSize then
        match currentWindow with
        | [] => filterLoop pickMostNeg windowSize (some w.stop) [w] rest
        | c :: cs =>
            selectWave pickMostNeg c cs ::
              filterLoop pickMostNeg windowSize (some w.stop) [w] rest
      else
        filterLoop pickMostNeg windowSize lastEndTime (currentWindow ++ [w]) rest

/-- `filter_epochs df window_size pick_most_negative`. -/
def filterEpochs (df : List Wave) (windowSize : ℚ) (pickMostNeg : Bool) : List Wave :=
  filterLoop pickMostNeg windowSize none [] df

/-- Modelled from the spec wording of the deduplicator: identical to
`filterLoop` except that, when a wave opens a new window and the previous
group is resolved, `last_end_time` becomes the SELECTED wave's `End`
(the spec sentence `last_window_end becomes the selected wave's end`)
rather than the end of the wave that opened the window.  The first wave,
for which there is no group to resolve, sets `last_end_time` to its own
`End` as in the source, so any divergence comes only from the disputed
update rule. -/
def filterLoopSpecModel (pickMostNeg : Bool) (windowSize : ℚ) :
    Option ℚ → List Wave → List Wave → List Wave
  | _, [], [] => []
  | _, c :: cs, [] => [selectWave pickMostNeg c cs]
  | lastEndTime, currentWindow, w :: rest =>
      if opensNewWindow lastEndTime w.start windowSize then
        match currentWindow with
        | [] => filterLoopSpecModel pickMostNeg windowSize (some w.stop) [w] rest
        | c :: cs =>
            let sel := selectWave pickMostNeg c cs
            sel :: filterLoopSpecModel pickMostNeg windowSize (some sel.stop) [w] rest
      else
        filterLoopSpecModel pickMostNeg windowSize lastEndTime (currentWindow ++ [w]) rest

/-- The deduplicator as described by the claim's words, with the
`last_window_end := selected wave's end` update rule. -/
def filterEpochsSpecModel (df : List Wave) (windowSize : ℚ) (pickMostNeg : Bool) :
    List Wave :=
  filterLoopSpecModel pickMostNeg windowSize none [] df

/-- The window groups actually induced by `filter_epochs`: each group
consists of an opening wave together with the following waves whose start
does not exceed the opener's `End` plus the window size; the next group
opens at the first later wave. -/
def waveGroups (windowSize : ℚ) : List Wave → List (Wave × List Wave)
  | [] => []
  | w :: rest =>
      (w, rest.takeWhile fun x => decide (x.start ≤ w.stop + windowSize)) ::
        waveGroups windowSize (rest.dropWhile fun x => decide (x.start ≤ w.stop + windowSize))
termination_by l => l.length
decreasing_by
  simp only [List.length_cons]
  exact Nat.lt_succ_of_le (List.dropWhile_sublist _).length_le

/-- The deduplicator restated over explicit window groups: one selected
representative per group, in group order. -/
def filterEpochsGrouped (df : List Wave) (windowSize : ℚ) (pickMostNeg : Bool) :
    List Wave :=
  (waveGroups windowSize df).map fun g => selectWave pickMostNeg g.1 g.2

/-! ## Derived definitions used by the verification -/

/-- The epoch scan order of `classify_wave_time`: all pre-stim epochs with
label `Pre-Stim`, then all stim epochs with label `Stim`, then all
post-stim epochs with label `Post-Stim`. -/
def labeledEpochs (preStimEpochs stimEpochs postStimEpochs : List Epoch) :
    List (Epoch × String) :=
  preStimEpochs.map (fun e => (e, "Pre-Stim")) ++
    stimEpochs.map (fun e => (e, "Stim")) ++
    postStimEpochs.map (fun e => (e, "Post-Stim"))

/-- Checker for the naming rule claimed for the classifier output: row `i`
must carry suffix `n` equal to one plus the number of EARLIER OUTPUT rows
in the same `(protocol, classification)` group, i.e. the 1-based rank of
the row within its group in the final output order.  `acc` is the list of
rows already checked. -/
def outputRankNamesOk (acc : List ClassifiedRow) : List ClassifiedRow → Bool
  | [] => true
  | r :: rest =>
      decide (r.name = slowWaveName r.protoNumber r.classification
        ((acc.countP fun q =>
          decide (q.protoNumber = r.protoNumber ∧ q.classification = r.classification)) + 1))
      && outputRankNamesOk (acc ++ [r]) rest

/-- Invariant of the segmenter loop state: the three epoch lists have equal
lengths, the protocol counter is one past the number of processed pairs,
the most recent post-stim epoch is the unshrunk `(stim_end, stim_end +
duration)` window of the most recent stim epoch and its end equals
`prev_post_stim_end`, and every recorded overlap between two existing
protocols `i+1` and `i+2` whose half-amount does not exceed either
adjacent stim duration (so neither clamp fired) satisfies the adjusted
no-residual-overlap boundary equation `post.end <= pre.start`. -/
def segInvariant (st : SegState) : Prop :=
  st.preRev.length = st.stimRev.length ∧
  st.postRev.length = st.stimRev.length ∧
  st.protoNum = st.stimRev.length + 1 ∧
  (∀ s0 stimTail, st.stimRev = s0 :: stimTail →
    ∃ postTail,
      st.postRev =
        Epoch.mk s0.stop (s0.stop + (s0.stop - s0.start)) s0.proto :: postTail ∧
      st.prevPostEnd = s0.stop + (s0.stop - s0.start)) ∧
  (∀ rec ∈ st.overlapsRev, rec.protoPair.2 ≤ st.stimRev.length ∧
    ∀ i pi pj si sj, rec.protoPair = (i + 1, i + 2) →
      st.postRev.reverse[i]? = some pi →
      st.preRev.reverse[i + 1]? = some pj →
      st.stimRev.reverse[i]? = some si →
      st.stimRev.reverse[i + 1]? = some sj →
      rec.amount / 2 ≤ si.stop - si.start →
      rec.amount / 2 ≤ sj.stop - sj.start →
      pi.stop ≤ pj.start)

/-! ## Validator lemmas -/

/-- Every event of a valid alternating stream is a stim marker. -/
theorem validStream_descriptions (anns : List Annotation) (h : validStream anns = true) :
    ∀ a ∈ anns, a.description = "stim start" ∨ a.description = "stim end" := by
  induction anns using validStream.induct with
  | case1 => intro a ha; cases ha
  | case2 a => simp [validStream] at h
  | case3 s e rest ih =>
      simp only [validStream, Bool.and_eq_true, decide_eq_true_eq] at h
      obtain ⟨⟨hs, he, _, _⟩, hrest⟩ := h
      intro a ha
      rcases List.mem_cons.mp ha with rfl | ha
      · exact Or.inl hs
      rcases List.mem_cons.mp ha with rfl | ha
      · exact Or.inr he
      exact ih hrest a ha

/-- On a valid alternating stream the `isin` filter of `clean_events` keeps
every row. -/
theorem validStream_filter_id (anns : List Annotation) (h : validStream anns = true) :
    (anns.filter fun a =>
      a.description = "stim start" ∨ a.description = "stim end") = anns := by
  apply List.filter_eq_self.mpr
  intro a ha
  simpa using validStream_descriptions anns h a ha

/-- On a valid alternating stream the validation loop accepts every pair
and omits nothing. -/
theorem cleanLoop_of_validStream (anns : List Annotation) (h : validStream anns = true) :
    cleanLoop none anns = (anns, []) := by
  induction anns using validStream.induct with
  | case1 => rfl
  | case2 a => simp [validStream] at h
  | case3 s e rest ih =>
      simp only [validStream, Bool.and_eq_true, decide_eq_true_eq] at h
      obtain ⟨⟨hs, he, hmin, hmax⟩, hrest⟩ := h
      have hne : e.description = "stim start" → False := by
        rw [he]; intro hx; exact absurd hx (by decide)
      simp [cleanLoop, hs, he, hmin, hmax, ih hrest]

/-- On a valid alternating stream `clean_events` returns the stream itself
with an empty omission record. -/
theorem cleanEvents_of_validStream (anns : List Annotation)
    (h : validStream anns = true) : cleanEvents anns = (anns, []) := by
  rw [cleanEvents, validStream_filter_id anns h, cleanLoop_of_validStream anns h]

/-! ## Claim C1 -/

/-- C1 counterexample.  Events `start@100, start@150, end@280`: the claim
predicts that the second start is rejected while the buffered `start@100`
stays pending and is paired with `end@280` (duration 180, in range), so the
cleaned output would contain that pair.  The code instead resets to
expecting a start after rejecting `start@150`, then rejects `end@280` as
unexpected too, so nothing is accepted. -/
theorem c1_counterexample :
    cleanEvents [⟨100, "stim start"⟩, ⟨150, "stim start"⟩, ⟨280, "stim end"⟩] =
      ([], [OmittedRecord.single 150 "stim start",
            OmittedRecord.single 280 "stim end"]) := by
  norm_num +decide [cleanEvents, cleanLoop, List.filter]

/-- C1 amended: when a `ProtocolStart` arrives while a start is buffered
(state `ExpectingEnd`), it is rejected as an unexpected event and the state
RESETS to `ExpectingStart`, discarding the buffered start; the buffered
start is not paired with any later `ProtocolEnd`.  The theorem states the
transition exactly: the loop continues as from the expecting-start state
with no buffered start. -/
theorem c1_start_in_expecting_end_resets (s ev : Annotation) (rest : List Annotation)
    (h : ev.description = "stim start") :
    cleanLoop (some s) (ev :: rest) =
      ((cleanLoop none rest).1,
        OmittedRecord.single ev.onset ev.description :: (cleanLoop none rest).2) := by
  have hne : ¬ ev.description = "stim end" := by rw [h]; decide
  simp [cleanLoop, hne]

/-- Witness for the C1 amended theorem at a concrete buffered start and
incoming start event. -/
theorem c1_start_in_expecting_end_resets_witness :
    cleanLoop (some ⟨100, "stim start"⟩) ([⟨150, "stim start"⟩, ⟨280, "stim end"⟩]) =
      ((cleanLoop none [⟨280, "stim end"⟩]).1,
        OmittedRecord.single 150 "stim start" :: (cleanLoop none [⟨280, "stim end"⟩]).2) :=
  c1_start_in_expecting_end_resets ⟨100, "stim start"⟩ ⟨150, "stim start"⟩
    [⟨280, "stim end"⟩] (by decide)

/-! ## Claim C5 -/

/-- C5 counterexample.  The claim says an empty annotation input makes
validation fail fast with a descriptive error instead of continuing and
returning empty output; `clean_events` on an empty annotation list raises
nothing and returns empty cleaned events and empty omissions. -/
theorem c5_counterexample :
    cleanEventsExcept [] = Except.ok ([], []) := rfl

/-- C5 amended: validation never raises for any in-memory annotation list —
data-quality issues (broken alternation, out-of-range durations) are
recorded as omissions and processing continues, and an empty input yields
empty output without an error; the fail-fast behavior exists in the
region-map loader, which raises a descriptive error when
`net_segmentation.json` is missing and returns the parsed data otherwise. -/
theorem c5_error_policy :
    (∀ anns : List Annotation, cleanEventsExcept anns = Except.ok (cleanEvents anns)) ∧
    cleanEventsExcept [] = Except.ok ([], []) ∧
    loadNetSegmentationJson none =
      Except.error "Net segmentation JSON file not found at path" ∧
    (∀ d : NetSegData, loadNetSegmentationJson (some d) = Except.ok d) :=
  ⟨fun _ => rfl, rfl, rfl, fun _ => rfl⟩

/-! ## Claim C9 -/

/-- C9: on an already-valid strictly alternating stream with all durations
inside `[minDuration, maxDuration]`, re-running validation on the
validator's own accepted output reproduces exactly that accepted sequence
with an empty omission record. -/
theorem c9_validator_idempotent (anns : List Annotation)
    (h : validStream anns = true) :
    cleanEvents (cleanEvents anns).1 = ((cleanEvents anns).1, []) := by
  rw [cleanEvents_of_validStream anns h]
  exact cleanEvents_of_validStream anns h

/-- Witness for C9 on a concrete two-pair valid stream. -/
theorem c9_validator_idempotent_witness :
    validStream [⟨100, "stim start"⟩, ⟨280, "stim end"⟩,
        ⟨640, "stim start"⟩, ⟨820, "stim end"⟩] = true ∧
    cleanEvents (cleanEvents [⟨100, "stim start"⟩, ⟨280, "stim end"⟩,
        ⟨640, "stim start"⟩, ⟨820, "stim end"⟩]).1 =
      ((cleanEvents [⟨100, "stim start"⟩, ⟨280, "stim end"⟩,
        ⟨640, "stim start"⟩, ⟨820, "stim end"⟩]).1, []) :=
  ⟨by norm_num +decide [validStream, minDuration, maxDuration],
   c9_validator_idempotent _ (by norm_num +decide [validStream, minDuration, maxDuration])⟩

/-! ## Deduplicator lemmas -/

/-- The Python `min` over a window returns one of its elements. -/
theorem pickMostNegative_mem (cs : List Wave) : ∀ w : Wave, pickMostNegative w cs ∈ w :: cs := by
  induction cs with
  | nil => intro w; simp [pickMostNegative]
  | cons x xs ih =>
      intro w
      rw [pickMostNegative]
      by_cases h : x.valNegPeak < w.valNegPeak
      · simp only [if_pos h]
        exact List.mem_cons_of_mem _ (ih x)
      · simp only [if_neg h]
        rcases List.mem_cons.mp (ih w) with h2 | h2
        · rw [h2]; exact List.mem_cons_self _ _
        · exact List.mem_cons_of_mem _ (List.mem_cons_of_mem _ h2)

/-- The selected representative of a window group is a member of the group. -/
theorem selectWave_mem (pick : Bool) (c : Wave) (cs : List Wave) :
    selectWave pick c cs ∈ c :: cs := by
  rw [selectWave]
  by_cases h : pick
  · simpa [h] using pickMostNegative_mem cs c
  · simp [h]

/-- Once a window is open with opener `c` (so `last_end_time = c.stop`) and
accumulated group `c :: cs`, the loop emits the representative of the group
extended by the incoming waves within `c.stop + windowSize`, and continues
on the remaining waves as a fresh group decomposition. -/
theorem filterLoop_eq_grouped (pick : Bool) (w : ℚ) :
    ∀ (rest : List Wave) (c : Wave) (cs : List Wave),
      filterLoop pick w (some c.stop) (c :: cs) rest =
        selectWave pick c (cs ++ rest.takeWhile fun x => decide (x.start ≤ c.stop + w)) ::
          (waveGroups w (rest.dropWhile fun x => decide (x.start ≤ c.stop + w))).map
            (fun g => selectWave pick g.1 g.2) := by
  intro rest
  induction rest with
  | nil => intro c cs; simp [filterLoop, waveGroups]
  | cons x rest ih =>
      intro c cs
      by_cases h : x.start ≤ c.stop + w
      · have hopen : opensNewWindow (some c.stop) x.start w = false := by
          simp [opensNewWindow, not_lt.mpr h]
        rw [filterLoop, hopen]
        simp only [Bool.false_eq_true, if_false]
        have : (c :: cs) ++ [x] = c :: (cs ++ [x]) := by simp
        rw [this, ih c (cs ++ [x])]
        simp [List.takeWhile_cons, List.dropWhile_cons, h, List.append_assoc]
      · have hopen : opensNewWindow (some c.stop) x.start w = true := by
          simp [opensNewWindow, lt_of_not_le h]
        rw [filterLoop, hopen]
        simp only [if_true]
        rw [ih x []]
        have hg : waveGroups w (x :: rest) =
            (x, rest.takeWhile fun y => decide (y.start ≤ x.stop + w)) ::
              waveGroups w (rest.dropWhile fun y => decide (y.start ≤ x.stop + w)) := by
          rw [waveGroups]
        simp [List.takeWhile_cons, List.dropWhile_cons, h, hg]

/-- `filter_epochs` computes exactly one representative per window group,
in group order, where a group is an opening wave together with the
following waves whose start does not exceed the opener's end plus the
window size. -/
theorem filterEpochs_eq_grouped (df : List Wave) (w : ℚ) (pick : Bool) :
    filterEpochs df w pick = filterEpochsGrouped df w pick := by
  cases df with
  | nil => simp [filterEpochs, filterEpochsGrouped, filterLoop, waveGroups]
  | cons x rest =>
      rw [filterEpochs, filterLoop]
      have hopen : opensNewWindow none x.start w = true := rfl
      rw [hopen]
      simp only [if_true]
      rw [filterLoop_eq_grouped pick w rest x []]
      rw [filterEpochsGrouped]
      have hg : waveGroups w (x :: rest) =
          (x, rest.takeWhile fun y => decide (y.start ≤ x.stop + w)) ::
            waveGroups w (rest.dropWhile fun y => decide (y.start ≤ x.stop + w)) := by
        rw [waveGroups]
      rw [hg]
      simp

/-- The per-group selections form a sublist of the input. -/
theorem waveGroups_map_select_sublist (w : ℚ) (pick : Bool) :
    ∀ (n : ℕ) (df : List Wave), df.length ≤ n →
      ((waveGroups w df).map fun g => selectWave pick g.1 g.2).Sublist df := by
  intro n
  induction n with
  | zero =>
      intro df hdf
      rw [List.length_eq_zero.mp (Nat.le_zero.mp hdf)]
      simp [waveGroups]
  | succ n ih =>
      intro df hdf
      cases df with
      | nil => simp [waveGroups]
      | cons x rest =>
          rw [waveGroups]
          simp only [List.map_cons]
          have hdecomp :
              x :: rest =
                (x :: rest.takeWhile fun y => decide (y.start ≤ x.stop + w)) ++
                  rest.dropWhile fun y => decide (y.start ≤ x.stop + w) := by
            rw [List.cons_append, List.takeWhile_append_dropWhile]
          rw [hdecomp]
          have h1 : [selectWave pick x
              (rest.takeWhile fun y => decide (y.start ≤ x.stop + w))].Sublist
              (x :: rest.takeWhile fun y => decide (y.start ≤ x.stop + w)) :=
            List.singleton_sublist.mpr (selectWave_mem _ _ _)
          have h2 := ih (rest.dropWhile fun y => decide (y.start ≤ x.stop + w))
            (le_trans ((List.dropWhile_sublist _).length_le)
              (Nat.le_of_succ_le_succ hdf))
          exact List.Sublist.append h1 h2

/-! ## Claim C2 -/

/-- C2 counterexample.  Four time-ordered waves, window 1, most-negative
tie-break.  The code keeps `last_end_time = 10` (the end of the wave that
opened the window) while the group `[w1, w2]` accumulates and then sets it
to the end of the next opener, so wave `(13, 14)` joins the third wave's
group and the output has two waves; under the claim's rule
(`last_window_end` becomes the SELECTED wave's end, here `6`) the fourth
wave would open another window and the output would have three waves. -/
theorem c2_counterexample :
    filterEpochs [⟨0, 10, -1⟩, ⟨5, 6, -5⟩, ⟨12, 13, -2⟩, ⟨13, 14, -10⟩] 1 true ≠
      filterEpochsSpecModel [⟨0, 10, -1⟩, ⟨5, 6, -5⟩, ⟨12, 13, -2⟩, ⟨13, 14, -10⟩] 1 true := by
  norm_num +decide [filterEpochs, filterEpochsSpecModel, filterLoop,
    filterLoopSpecModel, opensNewWindow, selectWave, pickMostNegative]

/-- C2 amended: a wave opens a new window exactly when its start strictly
exceeds `last_end_time + window` where `last_end_time` is the end of the
wave that most recently OPENED a window (the first wave of the current
group) — not the end of the group's selected representative; at that
moment the accumulated group is resolved (first wave, or first wave with
minimum `ValNegPeak`) and appended to the output, and the final open group
is flushed identically at end of input.  Stated as: the loop equals the
explicit group decomposition by opener windows, one representative per
group. -/
theorem c2_deduplicator_window_rule (df : List Wave) (w : ℚ) (pick : Bool) :
    filterEpochs df w pick = filterEpochsGrouped df w pick :=
  filterEpochs_eq_grouped df w pick

/-! ## Claim C10 -/

/-- C10: every output wave of `filter_epochs` is an input wave with all
fields unmodified and outputs preserve the input's relative order (the
output is a sublist of the input); a non-empty input yields a non-empty
output. -/
theorem c10_output_containment (df : List Wave) (w : ℚ) (pick : Bool) :
    (filterEpochs df w pick).Sublist df ∧ (df ≠ [] → filterEpochs df w pick ≠ []) := by
  constructor
  · rw [filterEpochs_eq_grouped, filterEpochsGrouped]
    exact waveGroups_map_select_sublist w pick df.length df le_rfl
  · intro hne
    cases df with
    | nil => exact absurd rfl hne
    | cons x rest =>
        rw [filterEpochs_eq_grouped, filterEpochsGrouped, waveGroups]
        simp

/-- Witness for C10 at a concrete two-wave input. -/
theorem c10_output_containment_witness :
    (filterEpochs [⟨0, 10, -1⟩, ⟨5, 6, -5⟩] 1 true).Sublist [⟨0, 10, -1⟩, ⟨5, 6, -5⟩] ∧
    filterEpochs [⟨0, 10, -1⟩, ⟨5, 6, -5⟩] 1 true ≠ [] :=
  ⟨(c10_output_containment [⟨0, 10, -1⟩, ⟨5, 6, -5⟩] 1 true).1,
   (c10_output_containment [⟨0, 10, -1⟩, ⟨5, 6, -5⟩] 1 true).2 (by simp)⟩

/-! ## Classifier lemmas and Claim C6 -/

/-- No epoch of the list contains `t` exactly when the scan finds none. -/
theorem findContaining_eq_none (t : ℚ) (l : List Epoch) :
    findContaining t l = none ↔ ∀ e ∈ l, ¬ (e.start ≤ t ∧ t ≤ e.stop) := by
  simp [findContaining, List.find?_eq_none]

/-- A found epoch is a member of the list and contains `t`. -/
theorem findContaining_some {t : ℚ} {l : List Epoch} {e : Epoch}
    (h : findContaining t l = some e) :
    e ∈ l ∧ e.start ≤ t ∧ t ≤ e.stop :=
  ⟨List.mem_of_find?_eq_some h, by simpa using List.find?_some h⟩

/-- C6: `classify_wave_time` returns the label and protocol of the FIRST
epoch containing the wave start in the scan order pre-stim epochs, then
stim epochs, then post-stim epochs (each list in its given order, which
for segmenter output is ascending protocol id); it returns
`(Unknown, None)` exactly when no epoch's closed interval contains the
start; and any non-Unknown result is witnessed by a containing epoch with
the returned protocol id. -/
theorem c6_time_classification (t : ℚ)
    (preStimEpochs stimEpochs postStimEpochs : List Epoch) :
    (classifyWaveTime t preStimEpochs stimEpochs postStimEpochs =
      match (labeledEpochs preStimEpochs stimEpochs postStimEpochs).find?
          (fun q => decide (q.1.start ≤ t ∧ t ≤ q.1.stop)) with
      | some q => (q.2, some q.1.proto)
      | none => ("Unknown", none)) ∧
    (classifyWaveTime t preStimEpochs stimEpochs postStimEpochs = ("Unknown", none) ↔
      ∀ e ∈ preStimEpochs ++ stimEpochs ++ postStimEpochs,
        ¬ (e.start ≤ t ∧ t ≤ e.stop)) ∧
    (∀ lbl pid,
      classifyWaveTime t preStimEpochs stimEpochs postStimEpochs = (lbl, some pid) →
      ∃ e ∈ preStimEpochs ++ stimEpochs ++ postStimEpochs,
        e.proto = pid ∧ e.start ≤ t ∧ t ≤ e.stop) := by
  have hfind : (labeledEpochs preStimEpochs stimEpochs postStimEpochs).find?
      (fun q => decide (q.1.start ≤ t ∧ t ≤ q.1.stop)) =
      ((findContaining t preStimEpochs).map (fun e => (e, "Pre-Stim"))).or
        (((findContaining t stimEpochs).map (fun e => (e, "Stim"))).or
          ((findContaining t postStimEpochs).map (fun e => (e, "Post-Stim")))) := by
    simp [labeledEpochs, List.find?_append, List.find?_map, findContaining, Function.comp_def]
  cases hp : findContaining t preStimEpochs with
  | some e1 =>
      obtain ⟨hm, hc1, hc2⟩ := findContaining_some hp
      refine ⟨?_, ?_, ?_⟩
      · rw [classifyWaveTime, hp, hfind, hp]; simp
      · constructor
        · intro h; rw [classifyWaveTime, hp] at h; simp at h
        · intro h
          exact absurd ⟨hc1, hc2⟩
            (h e1 (List.mem_append_left _ (List.mem_append_left _ hm)))
      · intro lbl pid h
        rw [classifyWaveTime, hp] at h
        simp only [Prod.mk.injEq, Option.some.injEq] at h
        exact ⟨e1, List.mem_append_left _ (List.mem_append_left _ hm), h.2, hc1, hc2⟩
  | none =>
    cases hs : findContaining t stimEpochs with
    | some e2 =>
        obtain ⟨hm, hc1, hc2⟩ := findContaining_some hs
        refine ⟨?_, ?_, ?_⟩
        · rw [classifyWaveTime, hp, hs, hfind, hp, hs]; simp
        · constructor
          · intro h; rw [classifyWaveTime, hp, hs] at h; simp at h
          · intro h
            exact absurd ⟨hc1, hc2⟩
              (h e2 (List.mem_append_left _ (List.mem_append_right _ hm)))
        · intro lbl pid h
          rw [classifyWaveTime, hp, hs] at h
          simp only [Prod.mk.injEq, Option.some.injEq] at h
          exact ⟨e2, List.mem_append_left _ (List.mem_append_right _ hm), h.2, hc1, hc2⟩
    | none =>
      cases hq : findContaining t postStimEpochs with
      | some e3 =>
          obtain ⟨hm, hc1, hc2⟩ := findContaining_some hq
          refine ⟨?_, ?_, ?_⟩
          · rw [classifyWaveTime, hp, hs, hq, hfind, hp, hs, hq]; simp
          · constructor
            · intro h; rw [classifyWaveTime, hp, hs, hq] at h; simp at h
            · intro h
              exact absurd ⟨hc1, hc2⟩ (h e3 (List.mem_append_right _ hm))
          · intro lbl pid h
            rw [classifyWaveTime, hp, hs, hq] at h
            simp only [Prod.mk.injEq, Option.some.injEq] at h
            exact ⟨e3, List.mem_append_right _ hm, h.2, hc1, hc2⟩
      | none =>
          refine ⟨?_, ?_, ?_⟩
          · rw [classifyWaveTime, hp, hs, hq, hfind, hp, hs, hq]; simp
          · constructor
            · intro _ e he
              rcases List.mem_append.mp he with he2 | he3
              · rcases List.mem_append.mp he2 with he4 | he5
                · exact (findContaining_eq_none t preStimEpochs).mp hp e he4
                · exact (findContaining_eq_none t stimEpochs).mp hs e he5
              · exact (findContaining_eq_none t postStimEpochs).mp hq e he3
            · intro _; rw [classifyWaveTime, hp, hs, hq]
          · intro lbl pid h
            rw [classifyWaveTime, hp, hs, hq] at h
            simp at h

/-- Witness for C6 at a concrete wave time and epoch set. -/
theorem c6_time_classification_witness :
    ∃ e ∈ [(⟨0, 10, 1⟩ : Epoch)] ++ [] ++ [],
      e.proto = 1 ∧ e.start ≤ 5 ∧ (5 : ℚ) ≤ e.stop :=
  (c6_time_classification 5 [⟨0, 10, 1⟩] [] []).2.2 "Pre-Stim" 1
    (by norm_num [classifyWaveTime, findContaining, List.find?])

/-! ## Segmenter lemmas and Claim C8 -/

/-- Consecutive pairing of a sorted onset list gives ordered pairs. -/
theorem pairUp_le : ∀ (l : List ℚ), l.Sorted (· ≤ ·) → ∀ p ∈ pairUp l, p.1 ≤ p.2
  | [], _, p, hp => by simp [pairUp] at hp
  | [_], _, p, hp => by simp [pairUp] at hp
  | a :: b :: rest, hl, p, hp => by
      rw [pairUp] at hp
      rcases List.mem_cons.mp hp with rfl | hp2
      · exact (List.sorted_cons.mp hl).1 b (List.mem_cons_self _ _)
      · exact pairUp_le rest (List.sorted_cons.mp (List.sorted_cons.mp hl).2).2 p hp2

/-- One segmenter step preserves the nonnegative-duration invariant of all
accumulated epochs, provided the incoming pair is ordered. -/
theorem segStep_epochs_ok (st : SegState) (pair : ℚ × ℚ) (hpair : pair.1 ≤ pair.2)
    (hst : ∀ e ∈ st.preRev ++ st.stimRev ++ st.postRev, e.start ≤ e.stop) :
    ∀ e ∈ (segStep st pair).preRev ++ (segStep st pair).stimRev ++
        (segStep st pair).postRev, e.start ≤ e.stop := by
  have hpre : ∀ e ∈ st.preRev, e.start ≤ e.stop := fun e he => hst e (by simp [he])
  have hstim : ∀ e ∈ st.stimRev, e.start ≤ e.stop := fun e he => hst e (by simp [he])
  have hpostOk : ∀ e ∈ st.postRev, e.start ≤ e.stop := fun e he => hst e (by simp [he])
  intro e he
  rcases hpost : st.postRev with _ | ⟨prevPost, postRest⟩
  · rw [hpost] at hpostOk
    simp only [segStep, hpost] at he
    split_ifs at he <;>
      simp only [List.mem_append, List.mem_cons, List.not_mem_nil, or_false] at he <;>
      rcases he with ((rfl | he) | (rfl | he)) | rfl <;>
      first
        | exact hpre e he
        | exact hstim e he
        | (show _ ≤ _; simp only; linarith)
  · rw [hpost] at hpostOk
    have hprevOk : prevPost.start ≤ prevPost.stop := hpostOk _ (List.mem_cons_self _ _)
    simp only [segStep, hpost] at he
    split_ifs at he <;>
      simp only [List.mem_append, List.mem_cons] at he <;>
      rcases he with ((rfl | he) | (rfl | he)) | (rfl | rfl | he) <;>
      first
        | exact hpre e he
        | exact hstim e he
        | exact hpostOk e (List.mem_cons_of_mem _ he)
        | exact hprevOk
        | (show _ ≤ _; simp only; linarith)

/-- The invariant extends over the whole segmenter loop. -/
theorem segFold_epochs_ok :
    ∀ (pairs : List (ℚ × ℚ)) (st : SegState),
      (∀ p ∈ pairs, p.1 ≤ p.2) →
      (∀ e ∈ st.preRev ++ st.stimRev ++ st.postRev, e.start ≤ e.stop) →
      ∀ e ∈ (pairs.foldl segStep st).preRev ++ (pairs.foldl segStep st).stimRev ++
          (pairs.foldl segStep st).postRev, e.start ≤ e.stop := by
  intro pairs
  induction pairs with
  | nil => intro st _ hst; simpa using hst
  | cons p ps ih =>
      intro st hp hst
      exact ih (segStep st p) (fun q hq => hp q (List.mem_cons_of_mem _ hq))
        (segStep_epochs_ok st p (hp p (List.mem_cons_self _ _)) hst)

/-! ## Claim C8 -/

/-- C8: for every input event list, no epoch emitted by the segmenter has
`end < start`: the overlap adjustments are clamped so that no epoch's end
moves before its own start, and a boundary violation only appends a
warning record (the function is total and returns normally). -/
theorem c8_no_negative_duration (cleanedEvents : List Annotation) :
    ∀ e ∈ (createAndVisualizeEpochs cleanedEvents).pre ++
        (createAndVisualizeEpochs cleanedEvents).stim ++
        (createAndVisualizeEpochs cleanedEvents).post, e.start ≤ e.stop := by
  intro e he
  have hsorted : ((cleanedEvents.map Annotation.onset).insertionSort (· ≤ ·)).Sorted
      (· ≤ ·) := List.sorted_insertionSort _ _
  have hpairs := pairUp_le _ hsorted
  have hmem : e ∈ ((pairUp ((cleanedEvents.map Annotation.onset).insertionSort
        (· ≤ ·))).foldl segStep segInit).preRev ++
      ((pairUp ((cleanedEvents.map Annotation.onset).insertionSort
        (· ≤ ·))).foldl segStep segInit).stimRev ++
      ((pairUp ((cleanedEvents.map Annotation.onset).insertionSort
        (· ≤ ·))).foldl segStep segInit).postRev := by
    rw [createAndVisualizeEpochs] at he
    simp only [List.mem_append, List.mem_reverse] at he
    simp only [List.mem_append]
    tauto
  exact segFold_epochs_ok _ segInit hpairs (by simp [segInit]) e hmem

/-- Witness for C8 at a concrete event list and epoch. -/
theorem c8_no_negative_duration_witness :
    (⟨200, 380, 1⟩ : Epoch).start ≤ (⟨200, 380, 1⟩ : Epoch).stop :=
  c8_no_negative_duration [⟨200, "stim start"⟩, ⟨380, "stim end"⟩] ⟨200, 380, 1⟩
    (by norm_num +decide [createAndVisualizeEpochs, segStep, segInit, pairUp,
      List.insertionSort, List.orderedInsert])

/-! ## Claim C7 -/

/-- C7 counterexample.  For the spec's worked example events, validation
accepts both pairs, but segmentation does NOT emit `Pre[1] = (-80, 100)`
with no overlap adjustment: `prev_post_stim_end` is initialized to `0`, so
the nominal pre-stim start `-80` of protocol 1 triggers an overlap record
`(0, 1)` of amount `80` and the pre-stim start is grown to `-40`. -/
theorem c7_counterexample :
    (createAndVisualizeEpochs (cleanEvents [⟨100, "stim start"⟩, ⟨280, "stim end"⟩,
        ⟨640, "stim start"⟩, ⟨820, "stim end"⟩]).1).pre[0]? = some ⟨-40, 100, 1⟩ ∧
    (createAndVisualizeEpochs (cleanEvents [⟨100, "stim start"⟩, ⟨280, "stim end"⟩,
        ⟨640, "stim start"⟩, ⟨820, "stim end"⟩]).1).pre[0]? ≠ some ⟨-80, 100, 1⟩ ∧
    (createAndVisualizeEpochs (cleanEvents [⟨100, "stim start"⟩, ⟨280, "stim end"⟩,
        ⟨640, "stim start"⟩, ⟨820, "stim end"⟩]).1).overlaps ≠ [] := by
  refine ⟨?_, ?_, ?_⟩ <;>
    norm_num +decide [cleanEvents, cleanLoop, List.filter, minDuration, maxDuration,
      createAndVisualizeEpochs, segStep, segInit, pairUp,
      List.insertionSort, List.orderedInsert]

/-- C7 amended.  Validation accepts exactly the two protocols
`(100, 280)` and `(640, 820)` (durations 180, in range), and segmentation
emits `During[1] = (100, 280)`, `Post[1] = (280, 460)`,
`Pre[2] = (460, 640)` with no adjustment between the protocols; but
`Pre[1] = (-40, 100)`, not `(-80, 100)`: the initial `prev_post_stim_end`
of 0 overlaps the nominal `(-80, 100)` pre window by 80, an overlap record
`(0, 1)` is emitted and the pre start is grown by 40 (there is no previous
post epoch to shrink).  In the variant with protocol 2 equal to
`(640, 830)` (duration 190), the nominal `Pre[2]` start is 450 while
`Post[1]` ends at 460, the recorded overlap between protocols 1 and 2 is
10, and as claimed `Post[1].end` becomes 455 and `Pre[2].start` becomes
455. -/
theorem c7_worked_examples :
    cleanEvents [⟨100, "stim start"⟩, ⟨280, "stim end"⟩,
        ⟨640, "stim start"⟩, ⟨820, "stim end"⟩] =
      ([⟨100, "stim start"⟩, ⟨280, "stim end"⟩,
        ⟨640, "stim start"⟩, ⟨820, "stim end"⟩], []) ∧
    createAndVisualizeEpochs [⟨100, "stim start"⟩, ⟨280, "stim end"⟩,
        ⟨640, "stim start"⟩, ⟨820, "stim end"⟩] =
      { pre := [⟨-40, 100, 1⟩, ⟨460, 640, 2⟩],
        stim := [⟨100, 280, 1⟩, ⟨640, 820, 2⟩],
        post := [⟨280, 460, 1⟩, ⟨820, 1000, 2⟩],
        overlaps := [⟨(0, 1), 80, -80, 0⟩], warnings := [] } ∧
    cleanEvents [⟨100, "stim start"⟩, ⟨280, "stim end"⟩,
        ⟨640, "stim start"⟩, ⟨830, "stim end"⟩] =
      ([⟨100, "stim start"⟩, ⟨280, "stim end"⟩,
        ⟨640, "stim start"⟩, ⟨830, "stim end"⟩], []) ∧
    (createAndVisualizeEpochs [⟨100, "stim start"⟩, ⟨280, "stim end"⟩,
        ⟨640, "stim start"⟩, ⟨830, "stim end"⟩]).post[0]? = some ⟨280, 455, 1⟩ ∧
    (createAndVisualizeEpochs [⟨100, "stim start"⟩, ⟨280, "stim end"⟩,
        ⟨640, "stim start"⟩, ⟨830, "stim end"⟩]).pre[1]? = some ⟨455, 640, 2⟩ ∧
    (createAndVisualizeEpochs [⟨100, "stim start"⟩, ⟨280, "stim end"⟩,
        ⟨640, "stim start"⟩, ⟨830, "stim end"⟩]).overlaps[1]? =
      some ⟨(1, 2), 10, 450, 460⟩ := by
  refine ⟨?_, ?_, ?_, ?_, ?_, ?_⟩ <;>
    norm_num +decide [cleanEvents, cleanLoop, List.filter, minDuration, maxDuration,
      createAndVisualizeEpochs, segStep, segInit, pairUp,
      List.insertionSort, List.orderedInsert]

/-! ## Classifier naming lemmas and Claim C3 -/

/-- The sort order of the final `sort_values` unfolded: protocol number
first, then the categorical classification rank, then the name as a
string. -/
theorem rowLE_iff (a b : ClassifiedRow) :
    rowLE a b ↔
      a.protoNumber < b.protoNumber ∨
        (a.protoNumber = b.protoNumber ∧
          (classificationRank a.classification < classificationRank b.classification ∨
            (classificationRank a.classification = classificationRank b.classification ∧
              a.name ≤ b.name))) := by
  show Prod.Lex _ _ _ _ ↔ _
  rw [Prod.lex_def]
  constructor
  · rintro (h | ⟨h1, h2⟩)
    · exact Or.inl h
    · rcases (Prod.lex_def ..).mp h2 with h3 | ⟨h3, h4⟩
      · exact Or.inr ⟨h1, Or.inl h3⟩
      · exact Or.inr ⟨h1, Or.inr ⟨h3, h4⟩⟩
  · rintro (h | ⟨h1, h2 | ⟨h3, h4⟩⟩)
    · exact Or.inl h
    · exact Or.inr ⟨h1, (Prod.lex_def ..).mpr (Or.inl h2)⟩
    · exact Or.inr ⟨h1, (Prod.lex_def ..).mpr (Or.inr ⟨h3, h4⟩)⟩

/-- The name suffix produced by the `cumcount` pass: one plus the number of
occurrences of the row's `(protocol, classification)` key among the
already-seen keys and the preceding rows. -/
theorem nameRows_getElem :
    ∀ (rows : List PreparedRow) (seen : List (ℕ × String)) (i : ℕ) (r : ClassifiedRow),
      (nameRows seen rows)[i]? = some r →
      r.name = slowWaveName r.protoNumber r.classification
        (seen.count (r.protoNumber, r.classification) +
          ((rows.take i).countP fun q =>
            decide (q.protoNumber = r.protoNumber ∧
              q.classification = r.classification)) + 1) := by
  intro rows
  induction rows with
  | nil => intro seen i r h; simp [nameRows] at h
  | cons row rest ih =>
      intro seen i r h
      cases i with
      | zero =>
          rw [nameRows] at h
          simp only [List.getElem?_cons_zero, Option.some.injEq] at h
          subst h
          simp
      | succ i =>
          rw [nameRows] at h
          simp only [List.getElem?_cons_succ] at h
          have := ih ((row.protoNumber, row.classification) :: seen) i r h
          rw [this]
          simp only [List.take_succ_cons, List.countP_cons, List.count_cons]
          by_cases hkey : row.protoNumber = r.protoNumber ∧ row.classification = r.classification
          · have hb : ((row.protoNumber, row.classification) ==
                (r.protoNumber, r.classification)) = true := by
              simp [hkey.1, hkey.2]
            have hd : (decide (row.protoNumber = r.protoNumber ∧
                row.classification = r.classification)) = true := by
              simp [hkey.1, hkey.2]
            rw [hb, hd]
            simp only [if_pos rfl]
            congr 1
            omega
          · have hb : ((row.protoNumber, row.classification) ==
                (r.protoNumber, r.classification)) = false := by
              simp only [beq_eq_false_iff_ne, ne_eq, Prod.mk.injEq, not_and]
              intro hc1 hc2
              exact hkey ⟨hc1, hc2⟩
            have hd : (decide (row.protoNumber = r.protoNumber ∧
                row.classification = r.classification)) = false := by
              simp only [decide_eq_false_iff_not]
              exact hkey
            rw [hb, hd]
            simp only [Bool.false_eq_true, if_false]
            congr 1

/-- C3 amended: each retained wave is named
`proto{id}_{phase}_sw{n}` where `n` is the 1-based rank of the wave within
its `(protocol, phase)` group in the order the rows appear AFTER
classification and Unknown-filtering but BEFORE the final sort (the
`cumcount` order), and the final output is a permutation of those named
rows sorted by `(protocol id, phase in the order pre-stim, stim,
post-stim, name compared as a string)`.  The rank-in-final-output reading
of the claim fails because names are compared as strings during the sort
(see the counterexample, where `sw10` sorts before `sw2`). -/
theorem c3_naming_and_order (netSegData : List (String × List (List String)))
    (df : List WaveRow) (preStimEpochs stimEpochs postStimEpochs : List Epoch) :
    List.Sorted rowLE
      (classifyAndFilterWaves netSegData df preStimEpochs stimEpochs postStimEpochs) ∧
    (classifyAndFilterWaves netSegData df preStimEpochs stimEpochs postStimEpochs).Perm
      (nameRows [] (classifiedRows netSegData df preStimEpochs stimEpochs postStimEpochs)) ∧
    (∀ i r, (nameRows [] (classifiedRows netSegData df preStimEpochs stimEpochs
        postStimEpochs))[i]? = some r →
      r.name = slowWaveName r.protoNumber r.classification
        (((classifiedRows netSegData df preStimEpochs stimEpochs postStimEpochs).take
            i).countP
          (fun q => decide (q.protoNumber = r.protoNumber ∧
            q.classification = r.classification)) + 1)) := by
  refine ⟨List.sorted_insertionSort _ _, List.perm_insertionSort _ _, ?_⟩
  intro i r h
  have hn := nameRows_getElem _ [] i r h
  simpa using hn

/-- Witness for the naming part of amended C3 at a one-wave input. -/
theorem c3_naming_and_order_witness :
    (⟨1, "E032", "pre-stim", 1, "L_frontal", "proto1_pre-stim_sw1"⟩ : ClassifiedRow).name =
      slowWaveName
        (⟨1, "E032", "pre-stim", 1, "L_frontal", "proto1_pre-stim_sw1"⟩ : ClassifiedRow).protoNumber
        (⟨1, "E032", "pre-stim", 1, "L_frontal", "proto1_pre-stim_sw1"⟩ : ClassifiedRow).classification
        (((classifiedRows [("Left Frontal", [["E032"]])] [⟨1, "E032"⟩]
            [⟨0, 1000, 1⟩] [] []).take 0).countP
          (fun q => decide (q.protoNumber =
            (⟨1, "E032", "pre-stim", 1, "L_frontal", "proto1_pre-stim_sw1"⟩ : ClassifiedRow).protoNumber ∧
            q.classification =
            (⟨1, "E032", "pre-stim", 1, "L_frontal", "proto1_pre-stim_sw1"⟩ : ClassifiedRow).classification)) + 1) :=
  (c3_naming_and_order [("Left Frontal", [["E032"]])] [⟨1, "E032"⟩]
      [⟨0, 1000, 1⟩] [] []).2.2 0
    ⟨1, "E032", "pre-stim", 1, "L_frontal", "proto1_pre-stim_sw1"⟩
    (by simp +decide [classifiedRows, classifyWaveTime, findContaining,
      classifyWaveRegion, regionLabel, lowerDash, nameRows, slowWaveName,
      List.find?])

/-- C3 counterexample.  Ten waves fall into one `(protocol, phase)` group;
the names `sw1 .. sw10` are assigned in classification order, but the
final sort compares names as strings, so `proto1_pre-stim_sw10` is placed
at output position 1 (0-based), between `sw1` and `sw2`.  Hence `n` does
NOT equal the 1-based rank of the wave within its group in the final
output order. -/
theorem c3_counterexample :
    outputRankNamesOk []
      (classifyAndFilterWaves [("Left Frontal", [["E032"]])]
        [⟨1, "E032"⟩, ⟨2, "E032"⟩, ⟨3, "E032"⟩, ⟨4, "E032"⟩, ⟨5, "E032"⟩,
         ⟨6, "E032"⟩, ⟨7, "E032"⟩, ⟨8, "E032"⟩, ⟨9, "E032"⟩, ⟨10, "E032"⟩]
        [⟨0, 1000, 1⟩] [] []) = false := by
  simp +decide [outputRankNamesOk, classifyAndFilterWaves, classifiedRows,
    classifyWaveTime, findContaining, classifyWaveRegion, regionLabel,
    lowerDash, nameRows, slowWaveName, List.find?, List.insertionSort,
    List.orderedInsert, rowLE_iff, classificationRank, String.le_iff_toList_le]

/-! ## Segmenter overlap-resolution lemmas and Claim C4 -/

/-- Indexing the reverse of a cons below the length of the tail. -/
theorem revGetElem_cons_lt {α : Type _} {l : List α} {x : α} {i : ℕ} (h : i < l.length) :
    (x :: l).reverse[i]? = l.reverse[i]? := by
  rw [List.reverse_cons]
  exact List.getElem?_append_left (by simpa using h)

/-- Indexing the reverse of a cons at the length of the tail yields the
head. -/
theorem revGetElem_cons_self {α : Type _} {l : List α} {x : α} :
    (x :: l).reverse[l.length]? = some x := by
  rw [List.reverse_cons]
  have h := List.getElem?_concat_length l.reverse x
  rw [List.length_reverse] at h
  exact h

/-- One segmenter step preserves `segInvariant`. -/
theorem segStep_invariant (st : SegState) (pair : ℚ × ℚ) (h : segInvariant st) :
    segInvariant (segStep st pair) := by
  obtain ⟨hlenPre, hlenPost, hproto, hhead, hrecs⟩ := h
  rcases hstim : st.stimRev with _ | ⟨s0, stimTail⟩
  · have hpostnil : st.postRev = [] := by
      rw [hstim] at hlenPost
      exact List.length_eq_zero.mp (by simpa using hlenPost)
    have hproto1 : st.protoNum = 1 := by rw [hstim] at hproto; simpa using hproto
    have hboundOld : ∀ rec ∈ st.overlapsRev, rec.protoPair.2 = 0 := by
      intro rec hrec
      have hb := (hrecs rec hrec).1
      rw [hstim] at hb
      simpa using hb
    have hvac : ∀ rec ∈ st.overlapsRev,
        ∀ (i : ℕ) (pi pj si sj : Epoch), rec.protoPair = (i + 1, i + 2) →
          (segStep st pair).postRev.reverse[i]? = some pi →
          (segStep st pair).preRev.reverse[i + 1]? = some pj →
          (segStep st pair).stimRev.reverse[i]? = some si →
          (segStep st pair).stimRev.reverse[i + 1]? = some sj →
          rec.amount / 2 ≤ si.stop - si.start →
          rec.amount / 2 ≤ sj.stop - sj.start →
          pi.stop ≤ pj.start := by
      intro rec hrec i pi pj si sj hpairEq
      have h0 := hboundOld rec hrec
      rw [hpairEq] at h0
      simp at h0
    by_cases hov : st.prevPostEnd - (pair.1 - (pair.2 - pair.1)) > 0
    · refine ⟨?_, ?_, ?_, ?_, ?_⟩
      · simp only [segStep, hpostnil, hstim, if_pos hov]
        simp only [List.length_cons, List.length_nil]
        rw [hstim] at hlenPre
        simp [hlenPre]
      · simp only [segStep, hpostnil, hstim, if_pos hov]
        simp
      · simp only [segStep, hpostnil, hstim, if_pos hov]
        simp [hproto1]
      · simp only [segStep, hpostnil, hstim, if_pos hov]
        intro s1 stimTail1 heq
        simp only [List.cons.injEq] at heq
        obtain ⟨rfl, -⟩ := heq
        exact ⟨[], by simp, by simp⟩
      · intro rec hrec
        have hrec2 : rec ∈ (segStep st pair).overlapsRev := hrec
        simp only [segStep, hpostnil, hstim, if_pos hov] at hrec2
        rcases List.mem_cons.mp hrec2 with rfl | hrecOld
        · constructor
          · simp only [segStep, hpostnil, hstim, if_pos hov]
            simp [hproto1]
          · intro i pi pj si sj hpairEq
            rw [hproto1] at hpairEq
            simp only [Prod.mk.injEq] at hpairEq
            omega
        · constructor
          · simp only [segStep, hpostnil, hstim, if_pos hov]
            simp [hboundOld rec hrecOld]
          · exact hvac rec hrecOld
    · refine ⟨?_, ?_, ?_, ?_, ?_⟩
      · simp only [segStep, hpostnil, hstim, if_neg hov]
        simp only [List.length_cons, List.length_nil]
        rw [hstim] at hlenPre
        simp [hlenPre, hpostnil]
      · simp only [segStep, hpostnil, hstim, if_neg hov]
        simp [hpostnil]
      · simp only [segStep, hpostnil, hstim, if_neg hov]
        simp [hproto1]
      · simp only [segStep, hpostnil, hstim, if_neg hov]
        intro s1 stimTail1 heq
        simp only [List.cons.injEq] at heq
        obtain ⟨rfl, -⟩ := heq
        exact ⟨st.postRev, by rw [hpostnil], by simp⟩
      · intro rec hrec
        have hrec2 : rec ∈ (segStep st pair).overlapsRev := hrec
        simp only [segStep, hpostnil, hstim, if_neg hov] at hrec2
        constructor
        · simp only [segStep, hpostnil, hstim, if_neg hov]
          simp [hboundOld rec hrec2]
        · exact hvac rec hrec2
  · obtain ⟨postTail, hpostEq, hppe⟩ := hhead s0 stimTail hstim
    have hpostTailLen : postTail.length = stimTail.length := by
      rw [hstim, hpostEq] at hlenPost
      simpa using hlenPost
    have hpreLen : st.preRev.length = stimTail.length + 1 := by
      rw [hstim] at hlenPre
      simpa using hlenPre
    have hprotoVal : st.protoNum = stimTail.length + 2 := by
      rw [hstim] at hproto
      simpa using hproto
    by_cases hov : st.prevPostEnd - (pair.1 - (pair.2 - pair.1)) > 0
    · refine ⟨?_, ?_, ?_, ?_, ?_⟩
      · simp only [segStep, hpostEq, hstim, if_pos hov]
        simp only [List.length_cons]
        rw [hpreLen]
      · simp only [segStep, hpostEq, hstim, if_pos hov]
        simp only [List.length_cons, hpostTailLen]
      · simp only [segStep, hpostEq, hstim, if_pos hov]
        simp only [List.length_cons, hprotoVal]
      · simp only [segStep, hpostEq, hstim, if_pos hov]
        intro s1 stimTail1 heq
        simp only [List.cons.injEq] at heq
        obtain ⟨rfl, -⟩ := heq
        exact ⟨_, rfl, rfl⟩
      · intro rec hrec
        have hrec2 : rec ∈ (segStep st pair).overlapsRev := hrec
        simp only [segStep, hpostEq, hstim, if_pos hov] at hrec2
        rcases List.mem_cons.mp hrec2 with rfl | hrecOld
        · constructor
          · simp only [segStep, hpostEq, hstim, if_pos hov]
            simp [hprotoVal]
          · intro i pi pj si sj hpairEq hgetPost hgetPre hgetStim1 hgetStim2 hA hB
            simp only [segStep, hpostEq, hstim, if_pos hov] at hgetPost hgetPre hgetStim1 hgetStim2
            rw [hprotoVal] at hpairEq
            simp only [Prod.mk.injEq] at hpairEq
            have hi : i = stimTail.length := by omega
            subst hi
            rw [revGetElem_cons_lt (by simp [hpostTailLen]), ← hpostTailLen,
              revGetElem_cons_self] at hgetPost
            rw [← hpreLen, revGetElem_cons_self] at hgetPre
            rw [revGetElem_cons_lt (by simp), revGetElem_cons_self] at hgetStim1
            rw [show stimTail.length + 1 = (s0 :: stimTail).length by simp,
              revGetElem_cons_self] at hgetStim2
            obtain rfl := (Option.some.injEq _ _).mp hgetPost
            obtain rfl := (Option.some.injEq _ _).mp hgetPre
            obtain rfl := (Option.some.injEq _ _).mp hgetStim1
            obtain rfl := (Option.some.injEq _ _).mp hgetStim2
            simp only at hA hB ⊢
            rw [if_neg (by intro hc; linarith),
              if_neg (by intro hc; linarith)]
            linarith
        · obtain ⟨hbound, hprop⟩ := hrecs rec hrecOld
          rw [hstim] at hbound
          simp only [List.length_cons] at hbound
          constructor
          · simp only [segStep, hpostEq, hstim, if_pos hov]
            simp only [List.length_cons]
            omega
          · intro i pi pj si sj hpairEq hgetPost hgetPre hgetStim1 hgetStim2 hA hB
            simp only [segStep, hpostEq, hstim, if_pos hov] at hgetPost hgetPre hgetStim1 hgetStim2
            have hile : i + 2 ≤ stimTail.length + 1 := by
              rw [hpairEq] at hbound
              simpa using hbound
            have hilt : i < postTail.length := by rw [hpostTailLen]; omega
            rw [revGetElem_cons_lt (by simp only [List.length_cons]; omega),
              revGetElem_cons_lt hilt] at hgetPost
            rw [revGetElem_cons_lt (by rw [hpreLen]; omega)] at hgetPre
            rw [revGetElem_cons_lt (by simp only [List.length_cons]; omega)] at hgetStim1
            rw [revGetElem_cons_lt (by simp only [List.length_cons]; omega)] at hgetStim2
            exact hprop i pi pj si sj hpairEq
              (by rw [hpostEq, revGetElem_cons_lt hilt]; exact hgetPost)
              hgetPre
              (by rw [hstim]; exact hgetStim1)
              (by rw [hstim]; exact hgetStim2)
              hA hB
    · refine ⟨?_, ?_, ?_, ?_, ?_⟩
      · simp only [segStep, hpostEq, hstim, if_neg hov]
        simp only [List.length_cons]
        rw [hpreLen]
      · simp only [segStep, hpostEq, hstim, if_neg hov]
        simp only [List.length_cons, hpostTailLen]
      · simp only [segStep, hpostEq, hstim, if_neg hov]
        simp only [List.length_cons, hprotoVal]
      · simp only [segStep, hpostEq, hstim, if_neg hov]
        intro s1 stimTail1 heq
        simp only [List.cons.injEq] at heq
        obtain ⟨rfl, -⟩ := heq
        exact ⟨_, rfl, rfl⟩
      · intro rec hrec
        have hrec2 : rec ∈ (segStep st pair).overlapsRev := hrec
        simp only [segStep, hpostEq, hstim, if_neg hov] at hrec2
        obtain ⟨hbound, hprop⟩ := hrecs rec hrec2
        rw [hstim] at hbound
        simp only [List.length_cons] at hbound
        constructor
        · simp only [segStep, hpostEq, hstim, if_neg hov]
          simp only [List.length_cons]
          omega
        · intro i pi pj si sj hpairEq hgetPost hgetPre hgetStim1 hgetStim2 hA hB
          simp only [segStep, hpostEq, hstim, if_neg hov] at hgetPost hgetPre hgetStim1 hgetStim2
          have hile : i + 2 ≤ stimTail.length + 1 := by
            rw [hpairEq] at hbound
            simpa using hbound
          rw [revGetElem_cons_lt (by simp only [List.length_cons]; omega)] at hgetPost
          rw [revGetElem_cons_lt (by rw [hpreLen]; omega)] at hgetPre
          rw [revGetElem_cons_lt (by simp only [List.length_cons]; omega)] at hgetStim1
          rw [revGetElem_cons_lt (by simp only [List.length_cons]; omega)] at hgetStim2
          exact hprop i pi pj si sj hpairEq
            (by rw [hpostEq]; exact hgetPost)
            hgetPre
            (by rw [hstim]; exact hgetStim1)
            (by rw [hstim]; exact hgetStim2)
            hA hB

/-- The invariant holds after folding the segmenter over any pair list. -/
theorem segFold_invariant :
    ∀ (pairs : List (ℚ × ℚ)) (st : SegState), segInvariant st →
      segInvariant (pairs.foldl segStep st) := by
  intro pairs
  induction pairs with
  | nil => intro st h; simpa using h
  | cons p ps ih => intro st h; exact ih (segStep st p) (segStep_invariant st p h)

/-- The initial segmenter state satisfies the invariant. -/
theorem segInit_invariant : segInvariant segInit := by
  refine ⟨rfl, rfl, rfl, ?_, ?_⟩
  · intro s0 stimTail h
    simp [segInit] at h
  · intro rec hrec
    simp [segInit] at hrec

/-- C4 amended: after segmentation, for any overlap record between two
consecutive existing protocols `i+1` and `i+2`, IF neither clamp fired —
half the recorded overlap amount does not exceed the duration of either
adjacent protocol's stim window — then the adjusted `Post[i].end` does not
exceed the adjusted `Pre[i+1].start` (they are in fact equal).  Without
this proviso the claim is false: a clamp raises the shrunk post end back
to its own start and can leave a residual overlap (see the
counterexample). -/
theorem c4_no_residual_overlap (cleanedEvents : List Annotation)
    (rec : OverlapRecord) (i : ℕ) (pi pj si sj : Epoch)
    (hrec : rec ∈ (createAndVisualizeEpochs cleanedEvents).overlaps)
    (hpair : rec.protoPair = (i + 1, i + 2))
    (hpi : (createAndVisualizeEpochs cleanedEvents).post[i]? = some pi)
    (hpj : (createAndVisualizeEpochs cleanedEvents).pre[i + 1]? = some pj)
    (hsi : (createAndVisualizeEpochs cleanedEvents).stim[i]? = some si)
    (hsj : (createAndVisualizeEpochs cleanedEvents).stim[i + 1]? = some sj)
    (hA : rec.amount / 2 ≤ si.stop - si.start)
    (hB : rec.amount / 2 ≤ sj.stop - sj.start) :
    pi.stop ≤ pj.start := by
  have hinv := segFold_invariant
    (pairUp ((cleanedEvents.map Annotation.onset).insertionSort (· ≤ ·)))
    segInit segInit_invariant
  obtain ⟨-, -, -, -, hrecs⟩ := hinv
  rw [createAndVisualizeEpochs] at hrec hpi hpj hsi hsj
  simp only [List.mem_reverse] at hrec
  exact (hrecs rec hrec).2 i pi pj si sj hpair hpi hpj hsi hsj hA hB

/-- Witness for amended C4 at the overlap variant of the worked example:
overlap 10 between protocols 1 and 2, half-amount 5 within both stim
durations (180 and 190), and the adjusted boundary satisfies
`455 ≤ 455`. -/
theorem c4_no_residual_overlap_witness :
    ((⟨280, 455, 1⟩ : Epoch)).stop ≤ ((⟨455, 640, 2⟩ : Epoch)).start :=
  c4_no_residual_overlap
    [⟨100, "stim start"⟩, ⟨280, "stim end"⟩, ⟨640, "stim start"⟩, ⟨830, "stim end"⟩]
    ⟨(1, 2), 10, 450, 460⟩ 0 ⟨280, 455, 1⟩ ⟨455, 640, 2⟩ ⟨100, 280, 1⟩ ⟨640, 830, 2⟩
    (by norm_num +decide [createAndVisualizeEpochs, segStep, segInit, pairUp,
      List.insertionSort, List.orderedInsert])
    rfl
    (by norm_num +decide [createAndVisualizeEpochs, segStep, segInit, pairUp,
      List.insertionSort, List.orderedInsert])
    (by norm_num +decide [createAndVisualizeEpochs, segStep, segInit, pairUp,
      List.insertionSort, List.orderedInsert])
    (by norm_num +decide [createAndVisualizeEpochs, segStep, segInit, pairUp,
      List.insertionSort, List.orderedInsert])
    (by norm_num +decide [createAndVisualizeEpochs, segStep, segInit, pairUp,
      List.insertionSort, List.orderedInsert])
    (by norm_num)
    (by norm_num)

/-- C4 counterexample.  The validated stream
`start@0, end@170, start@170, end@390` (durations 170 and 220, both in
range) yields an overlap of 390 between protocols 1 and 2; half of it
(195) exceeds protocol 1's stim duration (170), so the post clamp fires:
`Post[1]` becomes `(170, 170)` while `Pre[2]` becomes `(145, 170)`, and
`Post[1].end = 170 > 145 = Pre[2].start` — a residual overlap, refuting
the claim as stated (which includes the clamping case). -/
theorem c4_counterexample :
    validStream [⟨0, "stim start"⟩, ⟨170, "stim end"⟩,
        ⟨170, "stim start"⟩, ⟨390, "stim end"⟩] = true ∧
    (createAndVisualizeEpochs (cleanEvents [⟨0, "stim start"⟩, ⟨170, "stim end"⟩,
        ⟨170, "stim start"⟩, ⟨390, "stim end"⟩]).1).overlaps[1]? =
      some ⟨(1, 2), 390, -50, 340⟩ ∧
    (createAndVisualizeEpochs (cleanEvents [⟨0, "stim start"⟩, ⟨170, "stim end"⟩,
        ⟨170, "stim start"⟩, ⟨390, "stim end"⟩]).1).post[0]? = some ⟨170, 170, 1⟩ ∧
    (createAndVisualizeEpochs (cleanEvents [⟨0, "stim start"⟩, ⟨170, "stim end"⟩,
        ⟨170, "stim start"⟩, ⟨390, "stim end"⟩]).1).pre[1]? = some ⟨145, 170, 2⟩ ∧
    ¬ ((170 : ℚ) ≤ 145) := by
  refine ⟨?_, ?_, ?_, ?_, ?_⟩ <;>
    norm_num +decide [validStream, cleanEvents, cleanLoop, List.filter,
      minDuration, maxDuration, createAndVisualizeEpochs, segStep, segInit,
      pairUp, List.insertionSort, List.orderedInsert]
